import Mathlib

/-!
Verification development for `site_utils/suite_scheduler/base_event.py`:
the event abstraction of a continuous-testing scheduler (build-name codec,
task set, merge, trigger decision, build resolution, dispatch loop).

The Python module is shallowly embedded: the `BaseEvent` class becomes a
structure over an abstract task type `τ` and an abstract discovery-backend
handle type `μ`; the external Task contract (AvailableHosts, Run,
ShouldHaveAvailableHosts, launch_control_branches, launch_control_targets)
becomes a `TaskOps` record of pure functions.  A Python `set` of tasks is
embedded as a duplicate-free `List` in iteration order: `set(iterable)`
becomes `List.dedup`, `set.remove` becomes a membership check (KeyError on
absence) followed by `List.erase`, and every state reachable through the
class API keeps the list `Nodup`.  The dispatch loop `Handle` is embedded
as a function producing the final task set, a trace of the per-task
observable actions, and a flag recording whether an exception propagated
out of the call.
-/

/-- Suffix of config file sections, `_SECTION_SUFFIX = '_params'` in the source. -/
def SECTION_SUFFIX : String := "_params"

/-- Embeds `SectionName(keyword)`: `keyword + _SECTION_SUFFIX`. -/
def SectionName (keyword : String) : String :=
  keyword ++ SECTION_SUFFIX

/-- Embeds `HonoredSection(section)`: `section.endswith(_SECTION_SUFFIX)`.
Python's `str.endswith` is the suffix test on the character sequence,
embedded here as `List.isSuffixOf` over the strings' character lists
(`String.endsWith` is extensionally the same test but does not reduce in
the kernel). -/
def HonoredSection (sectionName : String) : Bool :=
  SECTION_SUFFIX.data.isSuffixOf sectionName.data

/-- Embeds `BuildName(board, type, milestone, manifest)`:
`'%s-%s/R%s-%s' % (board, type, milestone, manifest)`.
The milestone is numeric in the source docstring, so it is a `Nat` here and
`%s` renders it in decimal. -/
def BuildName (board type : String) (milestone : Nat) (manifest : String) : String :=
  board ++ "-" ++ type ++ "/R" ++ toString milestone ++ "-" ++ manifest

/-- Pattern `_LATEST_LAUNCH_CONTROL_BUILD_FMT = '%s/%s/LATEST'` applied to
a branch and a target. -/
def latestLaunchControlBuildFmt (branch target : String) : String :=
  branch ++ "/" ++ target ++ "/LATEST"

/-- The contract of the external Task type, as consumed by `BaseEvent`.
Within one `Handle` call the scheduler, branch builds, force flag, backend
handle and launch-control builds passed to `Run` are fixed, so they are
absorbed into the record; the board varies and stays an argument.
`run` returns `Except Unit Bool`: `.ok keep` is the boolean result of
`task.Run(...)`, `.error ()` models an exception raised by the run. -/
structure TaskOps (τ : Type) where
  availableHosts : τ → String → Bool
  shouldHaveAvailableHosts : τ → Bool
  run : τ → String → Except Unit Bool
  launchControlBranches : τ → List String
  launchControlTargets : τ → List String

/-- The `BaseEvent` state: `_keyword`, `_mv` (discovery backend handle of
abstract type `μ`), `_tasks` (a Python `set`, embedded as a duplicate-free
list in iteration order), and `_always_handle`. -/
structure BaseEvent (τ μ : Type) where
  keyword : String
  mv : μ
  tasks : List τ
  always_handle : Bool

/-- Embeds `BaseEvent.__init__(keyword, manifest_versions, always_handle)`:
stores keyword, the backend handle, an empty task set and the flag. -/
def BaseEvent.create (keyword : String) (mv : μ) (always_handle : Bool) :
    BaseEvent τ μ :=
  ⟨keyword, mv, [], always_handle⟩

/-- Embeds the `tasks` property setter:
`self._tasks = set(iterable_of_tasks)`. -/
def BaseEvent.setTasks [DecidableEq τ] (e : BaseEvent τ μ) (l : List τ) :
    BaseEvent τ μ :=
  { e with tasks := l.dedup }

/-- Embeds `BaseEvent.Merge(to_merge)`: assigns `to_merge.tasks` through the
tasks setter and copies `_mv` and `_always_handle`; `_keyword` is untouched. -/
def BaseEvent.Merge [DecidableEq τ] (self to_merge : BaseEvent τ μ) :
    BaseEvent τ μ :=
  let s := self.setTasks to_merge.tasks
  { s with mv := to_merge.mv, always_handle := to_merge.always_handle }

/-- Embeds `BaseEvent.ShouldHandle()`: `return self._always_handle`. -/
def BaseEvent.ShouldHandle (e : BaseEvent τ μ) : Bool :=
  e.always_handle

/-- Embeds the base `BaseEvent.FilterTasks()`: `return list(self.tasks)`. -/
def BaseEvent.FilterTasks (e : BaseEvent τ μ) : List τ :=
  e.tasks

/-- Embeds `dict.setdefault(branch, []).extend(targets)` on an
insertion-ordered association list. -/
def dictSetdefaultExtend :
    List (String × List String) → String → List String → List (String × List String)
  | [], key, vs => [(key, vs)]
  | (k, ts) :: rest, key, vs =>
    if k = key then (k, ts ++ vs) :: rest
    else (k, ts) :: dictSetdefaultExtend rest key vs

/-- Embeds the `launch_control_branches_targets` property: for every task in
the set, for every branch the task declares, extend the branch's accumulated
target list with the task's targets. -/
def BaseEvent.launch_control_branches_targets (ops : TaskOps τ)
    (e : BaseEvent τ μ) : List (String × List String) :=
  e.tasks.foldl
    (fun branches task =>
      (ops.launchControlBranches task).foldl
        (fun bs branch => dictSetdefaultExtend bs branch (ops.launchControlTargets task))
        branches)
    []

/-- One observable per-task action of the `Handle` dispatch loop:
the host-availability check with its outcome, a `Run` invocation with its
boolean result, a removal from the task set, a `Run` invocation that raised,
a failed `set.remove` (KeyError), and the skip diagnostic log. -/
inductive HandleStep (τ : Type) where
  | checkedHosts (t : τ) (avail : Bool)
  | ran (t : τ) (keep : Bool)
  | removed (t : τ)
  | raisedInRun (t : τ)
  | removeFailed (t : τ)
  | loggedSkip (t : τ)
deriving DecidableEq

/-- The task the step acted on. -/
def HandleStep.task : HandleStep τ → τ
  | .checkedHosts t _ => t
  | .ran t _ => t
  | .removed t => t
  | .raisedInRun t => t
  | .removeFailed t => t
  | .loggedSkip t => t

/-- Result of running the body of `Handle` over a candidate list: the task
set afterwards, the trace of per-task actions in order, and whether an
exception propagated (terminating the loop early). -/
structure LoopResult (τ : Type) where
  tasks : List τ
  trace : List (HandleStep τ)
  raised : Bool
deriving DecidableEq

/-- The `for task in tasks:` loop body of `BaseEvent.Handle`, one candidate
at a time over a snapshot list.  `if task.AvailableHosts(...): if not
task.Run(...): self._tasks.remove(task) elif task.ShouldHaveAvailableHosts():
logging.warning(skip)`.  A run that raises, or a `set.remove` of an absent
task (Python KeyError), aborts the loop with `raised = true` and leaves
the remaining candidates unprocessed. -/
def handleLoop [DecidableEq τ] (ops : TaskOps τ) (board : String) :
    List τ → List τ → LoopResult τ
  | [], tasks => ⟨tasks, [], false⟩
  | t :: rest, tasks =>
    if ops.availableHosts t board then
      match ops.run t board with
      | .error _ => ⟨tasks, [.checkedHosts t true, .raisedInRun t], true⟩
      | .ok true =>
        let r := handleLoop ops board rest tasks
        ⟨r.tasks, .checkedHosts t true :: .ran t true :: r.trace, r.raised⟩
      | .ok false =>
        if t ∈ tasks then
          let r := handleLoop ops board rest (tasks.erase t)
          ⟨r.tasks, .checkedHosts t true :: .ran t false :: .removed t :: r.trace, r.raised⟩
        else
          ⟨tasks, [.checkedHosts t true, .ran t false, .removeFailed t], true⟩
    else if ops.shouldHaveAvailableHosts t then
      let r := handleLoop ops board rest tasks
      ⟨r.tasks, .checkedHosts t false :: .loggedSkip t :: r.trace, r.raised⟩
    else
      let r := handleLoop ops board rest tasks
      ⟨r.tasks, .checkedHosts t false :: r.trace, r.raised⟩

/-- The observable outcome of one `BaseEvent.Handle` call: the candidate
snapshot it computed, the task set when it finished (or when the exception
left the call), the trace of per-task actions, and whether an exception
propagated out of the call. -/
structure HandleResult (τ : Type) where
  candidates : List τ
  tasks : List τ
  trace : List (HandleStep τ)
  raised : Bool
deriving DecidableEq

/-- Embeds `BaseEvent.Handle(scheduler, branch_builds, board, force,
launch_control_builds)`.  `filterTasks` stands for the dynamically
dispatched `self.FilterTasks()` (subclasses override it; the base
implementation is `BaseEvent.FilterTasks`).  The candidate snapshot is
`list(self.tasks) if force else self.FilterTasks()`; the call-level
`logging.info` is not a per-task action and is not traced. -/
def BaseEvent.Handle [DecidableEq τ] (ops : TaskOps τ)
    (filterTasks : BaseEvent τ μ → List τ) (e : BaseEvent τ μ)
    (board : String) (force : Bool) : HandleResult τ :=
  let candidates := if force then e.tasks else filterTasks e
  let r := handleLoop ops board candidates e.tasks
  ⟨candidates, r.tasks, r.trace, r.raised⟩

/-- Modelled from the spec: `utils.parse_launch_control_target` is outside
this repository's sources; the spec says a target combines a board name and
a build flavor (e.g. "shamu-eng") and that the board-component is parsed
from the target string.  Splits at the last dash: board-component before,
flavor after; a dashless string parses as board-component itself. -/
def splitLastDash : List Char → Option (List Char × List Char)
  | [] => none
  | c :: cs =>
    match splitLastDash cs with
    | some (pre, post) => some (c :: pre, post)
    | none => if c = '-' then some ([], cs) else none

/-- Modelled from the spec: parse a Launch Control target into
(board-component, flavor); see `splitLastDash`. -/
def parse_launch_control_target (target : String) : String × String :=
  match splitLastDash target.data with
  | some (pre, post) => (⟨pre⟩, ⟨post⟩)
  | none => (target, "")

/-- Embeds `BaseEvent._LatestLaunchControlBuilds(board)`.  The board alias
table `utils.ANDROID_BOARD_TO_TARGET_MAP` and the selected metadata
server's `translate` operation are external collaborators and enter as
parameters: `aliasMap` with `.get(board, board)` pass-through lookup, and
`translate` resolving a latest-build query key to an artifact identifier.
For every (branch, targets) aggregate, targets whose parsed board-component
equals the translated board survive, and one query per surviving target is
issued and its result appended. -/
def BaseEvent.LatestLaunchControlBuilds (ops : TaskOps τ)
    (aliasMap : List (String × String)) (translate : String → String)
    (e : BaseEvent τ μ) (board : String) : List String :=
  let board := ((aliasMap.lookup board).getD board)
  (BaseEvent.launch_control_branches_targets ops e).foldl
    (fun builds bt =>
      let match_targets := bt.2.filter (fun t => board = (parse_launch_control_target t).1)
      builds ++ match_targets.map (fun target => translate (latestLaunchControlBuildFmt bt.1 target)))
    []

/-- Injection of `Except` into `Sum`, used to decide equality of run
results. -/
def Except.toSum : Except ε α → ε ⊕ α
  | .error e => Sum.inl e
  | .ok a => Sum.inr a

instance [DecidableEq ε] [DecidableEq α] : DecidableEq (Except ε α) := fun a b =>
  decidable_of_iff (a.toSum = b.toSum) (by cases a <;> cases b <;> simp [Except.toSum])

/-! Concrete fixtures used by counterexamples and witnesses. -/

/-- Tasks are numbered; every task reports available hosts and a one-shot
(do-not-keep) run. -/
def opsAllDoNotKeep : TaskOps Nat where
  availableHosts := fun _ _ => true
  shouldHaveAvailableHosts := fun _ => true
  run := fun _ _ => Except.ok false
  launchControlBranches := fun _ => []
  launchControlTargets := fun _ => []

/-- Task 2 keeps, task 1 is one-shot; hosts always available. -/
def opsOneShotOne : TaskOps Nat where
  availableHosts := fun _ _ => true
  shouldHaveAvailableHosts := fun _ => true
  run := fun t _ => Except.ok (t == 2)
  launchControlBranches := fun _ => []
  launchControlTargets := fun _ => []

/-- Task 5's run raises; every other task keeps; hosts always available. -/
def opsRaiserFive : TaskOps Nat where
  availableHosts := fun _ _ => true
  shouldHaveAvailableHosts := fun _ => true
  run := fun t _ => if t = 5 then Except.error () else Except.ok true
  launchControlBranches := fun _ => []
  launchControlTargets := fun _ => []

/-- No hosts are ever available and no task requires them. -/
def opsNoHosts : TaskOps Nat where
  availableHosts := fun _ _ => false
  shouldHaveAvailableHosts := fun _ => false
  run := fun _ _ => Except.ok true
  launchControlBranches := fun _ => []
  launchControlTargets := fun _ => []

/-- Two tasks on branch git_mnc_release: task 1 targets shamu-eng and task 2
targets shamu-userdebug. -/
def opsLaunchControl : TaskOps Nat where
  availableHosts := fun _ _ => true
  shouldHaveAvailableHosts := fun _ => true
  run := fun _ _ => Except.ok true
  launchControlBranches := fun _ => ["git_mnc_release"]
  launchControlTargets := fun t => if t = 1 then ["shamu-eng"] else ["shamu-userdebug"]

/-- An event holding tasks 1 and 2. -/
def eventOneTwo : BaseEvent Nat Unit := ⟨"nightly", (), [1, 2], false⟩

/-- An event holding tasks 5 and 7. -/
def eventFiveSeven : BaseEvent Nat Unit := ⟨"nightly", (), [5, 7], false⟩

/-- An event holding task 3 only. -/
def eventThree : BaseEvent Nat Unit := ⟨"weekly", (), [3], false⟩

/-! Lemmas about the dispatch loop. -/

theorem handleLoop_tasks_subset [DecidableEq τ] (ops : TaskOps τ) (board : String)
    (cands : List τ) : ∀ tasks : List τ, (handleLoop ops board cands tasks).tasks ⊆ tasks := by
  induction cands with
  | nil => intro tasks; simp [handleLoop]
  | cons t rest ih =>
    intro tasks
    by_cases ha : ops.availableHosts t board
    · cases hr : ops.run t board with
      | error u => simp [handleLoop, ha, hr]
      | ok keep =>
        cases keep
        · by_cases hm : t ∈ tasks
          · simpa [handleLoop, ha, hr, hm] using
              (ih (tasks.erase t)).trans (List.erase_subset t tasks)
          · simp [handleLoop, ha, hr, hm]
        · simpa [handleLoop, ha, hr] using ih tasks
    · by_cases hs : ops.shouldHaveAvailableHosts t
      · simpa [handleLoop, ha, hs] using ih tasks
      · simpa [handleLoop, ha, hs] using ih tasks

theorem handleLoop_mem_of_not_removable [DecidableEq τ] (ops : TaskOps τ) (board : String)
    (cands : List τ) : ∀ (tasks : List τ) (u : τ), u ∈ tasks →
      ¬(u ∈ cands ∧ ops.availableHosts u board = true ∧ ops.run u board = .ok false) →
      u ∈ (handleLoop ops board cands tasks).tasks := by
  induction cands with
  | nil => intro tasks u hu _; simpa [handleLoop] using hu
  | cons t rest ih =>
    intro tasks u hu hnot
    have hrest : ¬(u ∈ rest ∧ ops.availableHosts u board = true ∧
        ops.run u board = .ok false) := by
      intro ⟨h1, h2, h3⟩; exact hnot ⟨List.mem_cons_of_mem t h1, h2, h3⟩
    by_cases ha : ops.availableHosts t board
    · cases hr : ops.run t board with
      | error x => simpa [handleLoop, ha, hr] using hu
      | ok keep =>
        cases keep
        · by_cases hm : t ∈ tasks
          · have hne : u ≠ t := by
              rintro rfl; exact hnot ⟨List.mem_cons_self u rest, ha, hr⟩
            have : u ∈ tasks.erase t := (List.mem_erase_of_ne hne).mpr hu
            simpa [handleLoop, ha, hr, hm] using ih (tasks.erase t) u this hrest
          · simpa [handleLoop, ha, hr, hm] using hu
        · simpa [handleLoop, ha, hr] using ih tasks u hu hrest
    · by_cases hs : ops.shouldHaveAvailableHosts t
      · simpa [handleLoop, ha, hs] using ih tasks u hu hrest
      · simpa [handleLoop, ha, hs] using ih tasks u hu hrest

theorem handleLoop_not_mem_of_removed [DecidableEq τ] (ops : TaskOps τ) (board : String)
    (cands : List τ) : ∀ (tasks : List τ), tasks.Nodup →
      (handleLoop ops board cands tasks).raised = false →
      ∀ t : τ, t ∈ cands → ops.availableHosts t board = true →
      ops.run t board = .ok false →
      t ∉ (handleLoop ops board cands tasks).tasks := by
  induction cands with
  | nil => intro tasks _ _ t ht; cases ht
  | cons c rest ih =>
    intro tasks hnodup hraised t ht ha hr
    by_cases hac : ops.availableHosts c board
    · cases hrc : ops.run c board with
      | error x => simp [handleLoop, hac, hrc] at hraised
      | ok keep =>
        cases keep
        · by_cases hm : c ∈ tasks
          · have hraised' : (handleLoop ops board rest (tasks.erase c)).raised = false := by
              simpa [handleLoop, hac, hrc, hm] using hraised
            by_cases hct : t = c
            · subst hct
              have h1 : t ∉ tasks.erase t := List.Nodup.not_mem_erase hnodup
              have h2 := handleLoop_tasks_subset ops board rest (tasks.erase t)
              simp only [handleLoop, hac, hrc, hm, if_true]
              exact fun hmem => h1 (h2 hmem)
            · have ht' : t ∈ rest := by
                rcases List.mem_cons.mp ht with h | h
                · exact absurd h hct
                · exact h
              simpa [handleLoop, hac, hrc, hm] using
                ih (tasks.erase c) (List.Nodup.erase c hnodup) hraised' t ht' ha hr
          · simp [handleLoop, hac, hrc, hm] at hraised
        · have hct : t ≠ c := by
            rintro rfl; rw [hr] at hrc; cases hrc
          have ht' : t ∈ rest := by
            rcases List.mem_cons.mp ht with h | h
            · exact absurd h hct
            · exact h
          have hraised' : (handleLoop ops board rest tasks).raised = false := by
            simpa [handleLoop, hac, hrc] using hraised
          simpa [handleLoop, hac, hrc] using ih tasks hnodup hraised' t ht' ha hr
    · have hct : t ≠ c := by rintro rfl; exact hac ha
      have ht' : t ∈ rest := by
        rcases List.mem_cons.mp ht with h | h
        · exact absurd h hct
        · exact h
      by_cases hs : ops.shouldHaveAvailableHosts c
      · have hraised' : (handleLoop ops board rest tasks).raised = false := by
          simpa [handleLoop, hac, hs] using hraised
        simpa [handleLoop, hac, hs] using ih tasks hnodup hraised' t ht' ha hr
      · have hraised' : (handleLoop ops board rest tasks).raised = false := by
          simpa [handleLoop, hac, hs] using hraised
        simpa [handleLoop, hac, hs] using ih tasks hnodup hraised' t ht' ha hr

theorem handleLoop_trace_unavailable [DecidableEq τ] (ops : TaskOps τ) (board : String)
    (cands : List τ) : ∀ (tasks : List τ) (t : τ), ops.availableHosts t board = false →
      ∀ s ∈ (handleLoop ops board cands tasks).trace, HandleStep.task s = t →
        s = .checkedHosts t false ∨
          (ops.shouldHaveAvailableHosts t = true ∧ s = .loggedSkip t) := by
  induction cands with
  | nil => intro tasks t _ s hs; simp [handleLoop] at hs
  | cons c rest ih =>
    intro tasks t hat s hs hstask
    by_cases hac : ops.availableHosts c board
    · have hct : c ≠ t := by rintro rfl; rw [hac] at hat; cases hat
      cases hrc : ops.run c board with
      | error x =>
        simp only [handleLoop, hac, hrc, if_true, List.mem_cons] at hs
        rcases hs with rfl | rfl | hs
        · exact absurd hstask hct
        · exact absurd hstask hct
        · simp at hs
      | ok keep =>
        cases keep
        · by_cases hm : c ∈ tasks
          · simp only [handleLoop, hac, hrc, hm, if_true, List.mem_cons] at hs
            rcases hs with rfl | rfl | rfl | hs
            · exact absurd hstask hct
            · exact absurd hstask hct
            · exact absurd hstask hct
            · exact ih (tasks.erase c) t hat s hs hstask
          · simp only [handleLoop, hac, hrc, hm, if_true, if_false, List.mem_cons] at hs
            rcases hs with rfl | rfl | rfl | hs
            · exact absurd hstask hct
            · exact absurd hstask hct
            · exact absurd hstask hct
            · simp at hs
        · simp only [handleLoop, hac, hrc, if_true, List.mem_cons] at hs
          rcases hs with rfl | rfl | hs
          · exact absurd hstask hct
          · exact absurd hstask hct
          · exact ih tasks t hat s hs hstask
    · by_cases hsh : ops.shouldHaveAvailableHosts c
      · simp only [handleLoop, hac, hsh, if_true, if_false, ite_true, ite_false,
          eq_self_iff_true, Bool.false_eq_true, List.mem_cons] at hs
        rcases hs with rfl | rfl | hs
        · simp only [HandleStep.task] at hstask
          subst hstask
          exact Or.inl rfl
        · simp only [HandleStep.task] at hstask
          subst hstask
          exact Or.inr ⟨hsh, rfl⟩
        · exact ih tasks t hat s hs hstask
      · simp only [handleLoop, hac, hsh, if_true, if_false, ite_true, ite_false,
          eq_self_iff_true, Bool.false_eq_true, List.mem_cons] at hs
        rcases hs with rfl | hs
        · simp only [HandleStep.task] at hstask
          subst hstask
          exact Or.inl rfl
        · exact ih tasks t hat s hs hstask

theorem handleLoop_raise_aborts [DecidableEq τ] (ops : TaskOps τ) (board : String) :
    ∀ (pre : List τ) (t : τ) (post tasks : List τ),
      (pre ++ t :: post).Nodup → (∀ u ∈ pre, u ∈ tasks) →
      (∀ u ∈ pre, ¬(ops.availableHosts u board = true ∧ ops.run u board = .error ())) →
      ops.availableHosts t board = true → ops.run t board = .error () →
      (handleLoop ops board (pre ++ t :: post) tasks).raised = true ∧
        ∀ u ∈ post,
          (∀ s ∈ (handleLoop ops board (pre ++ t :: post) tasks).trace,
            HandleStep.task s ≠ u) ∧
          (u ∈ tasks → u ∈ (handleLoop ops board (pre ++ t :: post) tasks).tasks) := by
  intro pre
  induction pre with
  | nil =>
    intro t post tasks hnodup _ _ hat hrt
    have htpost : t ∉ post := by
      simpa using (List.nodup_cons.mp (by simpa using hnodup)).1
    refine ⟨by simp [handleLoop, hat, hrt], ?_⟩
    intro u hu
    have hne : t ≠ u := by rintro rfl; exact htpost hu
    constructor
    · intro s hs
      have : s = HandleStep.checkedHosts t true ∨ s = HandleStep.raisedInRun t := by
        simpa [handleLoop, hat, hrt] using hs
      rcases this with rfl | rfl <;> simpa [HandleStep.task] using hne
    · intro hmem
      simpa [handleLoop, hat, hrt] using hmem
  | cons c pre' ih =>
    intro t post tasks hnodup hmempre hnoraise hat hrt
    have hnodup' : (pre' ++ t :: post).Nodup := (List.nodup_cons.mp hnodup).2
    have hcnot : c ∉ pre' ++ t :: post := (List.nodup_cons.mp hnodup).1
    have hmempre' : ∀ u ∈ pre', u ∈ tasks := fun u hu =>
      hmempre u (List.mem_cons_of_mem c hu)
    have hnoraise' : ∀ u ∈ pre',
        ¬(ops.availableHosts u board = true ∧ ops.run u board = .error ()) :=
      fun u hu => hnoraise u (List.mem_cons_of_mem c hu)
    have hcpost : c ∉ post := fun hc =>
      hcnot (List.mem_append.mpr (Or.inr (List.mem_cons_of_mem t hc)))
    have hcu : ∀ u ∈ post, c ≠ u := fun u hu h => hcpost (h.symm ▸ hu)
    by_cases hac : ops.availableHosts c board
    · cases hrc : ops.run c board with
      | error x =>
        cases x
        exact absurd ⟨hac, hrc⟩ (hnoraise c (List.mem_cons_self c pre'))
      | ok keep =>
        cases keep
        · have hm : c ∈ tasks := hmempre c (List.mem_cons_self c pre')
          have hmempre'' : ∀ u ∈ pre', u ∈ tasks.erase c := by
            intro u hu
            have hne : u ≠ c := by
              rintro rfl
              exact hcnot (List.mem_append.mpr (Or.inl hu))
            exact (List.mem_erase_of_ne hne).mpr (hmempre' u hu)
          have hih := ih t post (tasks.erase c) hnodup' hmempre'' hnoraise' hat hrt
          refine ⟨by simpa [handleLoop, hac, hrc, hm] using hih.1, ?_⟩
          intro u hu
          refine ⟨?_, ?_⟩
          · intro s hs
            have : s = HandleStep.checkedHosts c true ∨ s = HandleStep.ran c false ∨
                s = HandleStep.removed c ∨
                s ∈ (handleLoop ops board (pre' ++ t :: post) (tasks.erase c)).trace := by
              simpa [handleLoop, hac, hrc, hm] using hs
            rcases this with rfl | rfl | rfl | hs'
            · simpa [HandleStep.task] using hcu u hu
            · simpa [HandleStep.task] using hcu u hu
            · simpa [HandleStep.task] using hcu u hu
            · exact ((hih.2 u hu).1) s hs'
          · intro hmem
            have hne : u ≠ c := fun h => (hcu u hu) h.symm
            have : u ∈ tasks.erase c := (List.mem_erase_of_ne hne).mpr hmem
            simpa [handleLoop, hac, hrc, hm] using (hih.2 u hu).2 this
        · have hih := ih t post tasks hnodup' hmempre' hnoraise' hat hrt
          refine ⟨by simpa [handleLoop, hac, hrc] using hih.1, ?_⟩
          intro u hu
          refine ⟨?_, ?_⟩
          · intro s hs
            have : s = HandleStep.checkedHosts c true ∨ s = HandleStep.ran c true ∨
                s ∈ (handleLoop ops board (pre' ++ t :: post) tasks).trace := by
              simpa [handleLoop, hac, hrc] using hs
            rcases this with rfl | rfl | hs'
            · simpa [HandleStep.task] using hcu u hu
            · simpa [HandleStep.task] using hcu u hu
            · exact ((hih.2 u hu).1) s hs'
          · intro hmem
            simpa [handleLoop, hac, hrc] using (hih.2 u hu).2 hmem
    · have hih := ih t post tasks hnodup' hmempre' hnoraise' hat hrt
      by_cases hsh : ops.shouldHaveAvailableHosts c
      · refine ⟨by simpa [handleLoop, hac, hsh] using hih.1, ?_⟩
        intro u hu
        refine ⟨?_, ?_⟩
        · intro s hs
          have : s = HandleStep.checkedHosts c false ∨ s = HandleStep.loggedSkip c ∨
              s ∈ (handleLoop ops board (pre' ++ t :: post) tasks).trace := by
            simpa [handleLoop, hac, hsh] using hs
          rcases this with rfl | rfl | hs'
          · simpa [HandleStep.task] using hcu u hu
          · simpa [HandleStep.task] using hcu u hu
          · exact ((hih.2 u hu).1) s hs'
        · intro hmem
          simpa [handleLoop, hac, hsh] using (hih.2 u hu).2 hmem
      · refine ⟨by simpa [handleLoop, hac, hsh] using hih.1, ?_⟩
        intro u hu
        refine ⟨?_, ?_⟩
        · intro s hs
          have : s = HandleStep.checkedHosts c false ∨
              s ∈ (handleLoop ops board (pre' ++ t :: post) tasks).trace := by
            simpa [handleLoop, hac, hsh] using hs
          rcases this with rfl | hs'
          · simpa [HandleStep.task] using hcu u hu
          · exact ((hih.2 u hu).1) s hs'
        · intro hmem
          simpa [handleLoop, hac, hsh] using (hih.2 u hu).2 hmem

/-- Handle with the base-class FilterTasks uses the task set itself as the
candidate snapshot whatever the force flag is. -/
theorem Handle_base_eq_loop [DecidableEq τ] (ops : TaskOps τ) (e : BaseEvent τ μ)
    (board : String) (force : Bool) :
    BaseEvent.Handle ops BaseEvent.FilterTasks e board force =
      ⟨e.tasks, (handleLoop ops board e.tasks e.tasks).tasks,
       (handleLoop ops board e.tasks e.tasks).trace,
       (handleLoop ops board e.tasks e.tasks).raised⟩ := by
  cases force <;> rfl

/-! The claims. -/

/-- C8: `BuildName(board, type, milestone, manifest)` deterministically
returns `"<board>-<type>/R<milestone>-<manifest>"` with no input validation;
in particular `BuildName("x86-alex", "release", 20, "2015.0.0")` is exactly
`"x86-alex-release/R20-2015.0.0"`. -/
theorem build_name_formats (board type manifest : String) (milestone : Nat) :
    BuildName board type milestone manifest =
      board ++ "-" ++ type ++ "/R" ++ toString milestone ++ "-" ++ manifest ∧
    BuildName "x86-alex" "release" 20 "2015.0.0" = "x86-alex-release/R20-2015.0.0" :=
  ⟨rfl, by decide⟩

/-- C9: `SectionName(k)` appends the fixed suffix `"_params"` to `k`, and
`HonoredSection(s)` is true iff `s` ends with that suffix; in particular
`SectionName("nightly") = "nightly_params"`,
`HonoredSection("nightly_params")` is true and `HonoredSection("nightly")`
is false. -/
theorem section_name_and_honored_section (k s : String) :
    SectionName k = k ++ "_params" ∧
    (HonoredSection s = true ↔ "_params".data <:+ s.data) ∧
    SectionName "nightly" = "nightly_params" ∧
    HonoredSection "nightly_params" = true ∧
    HonoredSection "nightly" = false :=
  ⟨rfl, List.isSuffixOf_iff_suffix, by decide, by decide, by decide⟩

/-- C5: an event whose `always_handle` flag is set has `ShouldHandle()`
return true regardless of any other internal state (task set contents,
backend handle, keyword). -/
theorem should_handle_of_always_handle (e : BaseEvent τ μ)
    (h : e.always_handle = true) : e.ShouldHandle = true := h

/-- Witness for C5 at a concrete event with a non-empty task set. -/
theorem should_handle_of_always_handle_witness :
    (⟨"nightly", (), [1, 2, 3], true⟩ : BaseEvent Nat Unit).always_handle = true ∧
    (⟨"nightly", (), [1, 2, 3], true⟩ : BaseEvent Nat Unit).ShouldHandle = true :=
  ⟨rfl, should_handle_of_always_handle _ rfl⟩

/-- C2: after `self.Merge(other)`, `self`'s keyword is unchanged and its
task set, backend handle and always-handle flag equal `other`'s, for every
prior state of `self` and every event `other` (whose task set, being a
Python set, is duplicate-free). -/
theorem merge_preserves_keyword_copies_rest [DecidableEq τ]
    (self other : BaseEvent τ μ) (hn : other.tasks.Nodup) :
    (self.Merge other).keyword = self.keyword ∧
    (self.Merge other).tasks = other.tasks ∧
    (self.Merge other).mv = other.mv ∧
    (self.Merge other).always_handle = other.always_handle := by
  refine ⟨rfl, ?_, rfl, rfl⟩
  simpa [BaseEvent.Merge, BaseEvent.setTasks] using List.dedup_eq_self.mpr hn

/-- Witness for C2 at concrete events differing in every field. -/
theorem merge_preserves_keyword_copies_rest_witness :
    (⟨"weekly", 9, [1, 2], true⟩ : BaseEvent Nat Nat).tasks.Nodup ∧
    ((BaseEvent.Merge ⟨"nightly", 0, [5], false⟩ ⟨"weekly", 9, [1, 2], true⟩).keyword =
        (⟨"nightly", 0, [5], false⟩ : BaseEvent Nat Nat).keyword ∧
      (BaseEvent.Merge ⟨"nightly", 0, [5], false⟩ ⟨"weekly", 9, [1, 2], true⟩).tasks =
        (⟨"weekly", 9, [1, 2], true⟩ : BaseEvent Nat Nat).tasks ∧
      (BaseEvent.Merge ⟨"nightly", 0, [5], false⟩ ⟨"weekly", 9, [1, 2], true⟩).mv =
        (⟨"weekly", 9, [1, 2], true⟩ : BaseEvent Nat Nat).mv ∧
      (BaseEvent.Merge ⟨"nightly", 0, [5], false⟩ ⟨"weekly", 9, [1, 2], true⟩).always_handle =
        (⟨"weekly", 9, [1, 2], true⟩ : BaseEvent Nat Nat).always_handle) :=
  ⟨by decide, merge_preserves_keyword_copies_rest _ _ (by decide)⟩

/-- C3: `Handle` with `force=true` uses every task currently in the task set
as the candidate list, whatever `FilterTasks()` (here the `f`, `g`
overrides) would return; with `force=false` it uses exactly the list
returned by `FilterTasks()`. -/
theorem handle_candidates_force_or_filter [DecidableEq τ] (ops : TaskOps τ)
    (f g : BaseEvent τ μ → List τ) (e : BaseEvent τ μ) (board : String) :
    (BaseEvent.Handle ops f e board true).candidates = e.tasks ∧
    BaseEvent.Handle ops f e board true = BaseEvent.Handle ops g e board true ∧
    (BaseEvent.Handle ops f e board false).candidates = f e :=
  ⟨rfl, rfl, rfl⟩

/-- C4: the tasks setter de-duplicates: the stored set has no two
logically-equal tasks, its size is the number of distinct tasks of the
assigned iterable, and its members are exactly the iterable's elements;
the same duplicate-free-set property holds after construction and after
`Merge`. -/
theorem tasks_setter_dedups [DecidableEq τ] (e o : BaseEvent τ μ) (l : List τ)
    (keyword : String) (mv : μ) (always : Bool) :
    ((e.setTasks l).tasks.Nodup ∧
      (e.setTasks l).tasks.length = l.toFinset.card ∧
      ∀ t, t ∈ (e.setTasks l).tasks ↔ t ∈ l) ∧
    (BaseEvent.create keyword mv always : BaseEvent τ μ).tasks.Nodup ∧
    ((e.Merge o).tasks.Nodup ∧
      (e.Merge o).tasks.length = o.tasks.toFinset.card) := by
  refine ⟨⟨List.nodup_dedup l, (List.card_toFinset l).symm,
    fun t => List.mem_dedup⟩, List.nodup_nil, ?_, ?_⟩
  · exact List.nodup_dedup o.tasks
  · exact (List.card_toFinset o.tasks).symm

/-- C1 counterexample: with two candidate tasks that both report available
hosts and whose runs both return "do not keep", `Handle` removes both, so
the claim's "every other task that was in the set is still in the set"
fails: task 1 satisfies the claim's premises, the call returns normally,
yet the distinct task 2 is gone from the task set as well. -/
theorem handle_do_not_keep_frame_counterexample :
    (1 ∈ (BaseEvent.Handle opsAllDoNotKeep BaseEvent.FilterTasks
        eventOneTwo "board" false).candidates ∧
      opsAllDoNotKeep.availableHosts 1 "board" = true ∧
      opsAllDoNotKeep.run 1 "board" = Except.ok false ∧
      (BaseEvent.Handle opsAllDoNotKeep BaseEvent.FilterTasks
        eventOneTwo "board" false).raised = false ∧
      2 ∈ eventOneTwo.tasks ∧ (2 : Nat) ≠ 1) ∧
    2 ∉ (BaseEvent.Handle opsAllDoNotKeep BaseEvent.FilterTasks
        eventOneTwo "board" false).tasks := by
  decide

/-- C1 (amended): for every event state with a duplicate-free task set and
every task `t` in the candidate list of `Handle`, if `t` reports hosts
available for the board, `t`'s run returns "do not keep", and the call
returns normally, then `t` is absent from the task set afterwards, and
every other task that was in the set is still in the set unless it too was
a candidate reporting available hosts whose run returned "do not keep". -/
theorem handle_do_not_keep_removes_exactly [DecidableEq τ] (ops : TaskOps τ)
    (f : BaseEvent τ μ → List τ) (e : BaseEvent τ μ) (board : String)
    (force : Bool) (t : τ) (hn : e.tasks.Nodup)
    (hraised : (BaseEvent.Handle ops f e board force).raised = false)
    (hc : t ∈ (BaseEvent.Handle ops f e board force).candidates)
    (ha : ops.availableHosts t board = true)
    (hr : ops.run t board = Except.ok false) :
    t ∉ (BaseEvent.Handle ops f e board force).tasks ∧
      ∀ u ∈ e.tasks,
        ¬(u ∈ (BaseEvent.Handle ops f e board force).candidates ∧
          ops.availableHosts u board = true ∧
          ops.run u board = Except.ok false) →
        u ∈ (BaseEvent.Handle ops f e board force).tasks := by
  constructor
  · exact handleLoop_not_mem_of_removed ops board _ e.tasks hn hraised t hc ha hr
  · intro u hu hnot
    exact handleLoop_mem_of_not_removable ops board _ e.tasks u hu hnot

/-- Witness for the amended C1: tasks 1 and 2, where only task 1 is
one-shot; the call removes exactly task 1. -/
theorem handle_do_not_keep_removes_exactly_witness :
    (eventOneTwo.tasks.Nodup ∧
      (BaseEvent.Handle opsOneShotOne BaseEvent.FilterTasks
        eventOneTwo "board" false).raised = false ∧
      1 ∈ (BaseEvent.Handle opsOneShotOne BaseEvent.FilterTasks
        eventOneTwo "board" false).candidates ∧
      opsOneShotOne.availableHosts 1 "board" = true ∧
      opsOneShotOne.run 1 "board" = Except.ok false) ∧
    1 ∉ (BaseEvent.Handle opsOneShotOne BaseEvent.FilterTasks
        eventOneTwo "board" false).tasks :=
  ⟨⟨by decide, by decide, by decide, by decide, by decide⟩,
    (handle_do_not_keep_removes_exactly opsOneShotOne BaseEvent.FilterTasks
      eventOneTwo "board" false 1 (by decide) (by decide) (by decide)
      (by decide) (by decide)).1⟩

/-- C6: with two tasks on branch git_mnc_release targeting shamu-eng and
shamu-userdebug, and board shamu aliased to itself, the aggregated view has
the one branch with both targets, both targets survive the board filter,
and the latest-build lookup issues exactly two queries of the form
`"<branch>/<target>/LATEST"` (one per surviving target) and returns exactly
the two resolved identifiers, never more, never fewer. -/
theorem latest_launch_control_builds_two_queries (translate : String → String) :
    BaseEvent.launch_control_branches_targets opsLaunchControl eventOneTwo =
      [("git_mnc_release", ["shamu-eng", "shamu-userdebug"])] ∧
    BaseEvent.LatestLaunchControlBuilds opsLaunchControl [("shamu", "shamu")]
        translate eventOneTwo "shamu" =
      [translate (latestLaunchControlBuildFmt "git_mnc_release" "shamu-eng"),
       translate (latestLaunchControlBuildFmt "git_mnc_release" "shamu-userdebug")] :=
  ⟨rfl, rfl⟩

/-- C7: if a candidate's run raises, the exception propagates out of
`Handle` uncaught (`raised = true`); writing the candidate list as
`pre ++ t :: post` where `t` is the first raising candidate, no candidate
in `post` is touched by any traced action (neither its host-availability
check nor its run happens) and every candidate in `post` is still in the
task set when the exception leaves the call. -/
theorem handle_run_exception_aborts [DecidableEq τ] (ops : TaskOps τ)
    (e : BaseEvent τ μ) (board : String) (force : Bool)
    (pre post : List τ) (t : τ) (hn : e.tasks.Nodup)
    (hsplit : (BaseEvent.Handle ops BaseEvent.FilterTasks e board force).candidates =
      pre ++ t :: post)
    (hpre : ∀ u ∈ pre,
      ¬(ops.availableHosts u board = true ∧ ops.run u board = Except.error ()))
    (ha : ops.availableHosts t board = true)
    (hr : ops.run t board = Except.error ()) :
    (BaseEvent.Handle ops BaseEvent.FilterTasks e board force).raised = true ∧
      ∀ u ∈ post,
        (∀ s ∈ (BaseEvent.Handle ops BaseEvent.FilterTasks e board force).trace,
          HandleStep.task s ≠ u) ∧
        u ∈ (BaseEvent.Handle ops BaseEvent.FilterTasks e board force).tasks := by
  have hcand : e.tasks = pre ++ t :: post := by
    rw [Handle_base_eq_loop] at hsplit
    exact hsplit
  have hn' : (pre ++ t :: post).Nodup := hcand ▸ hn
  have hmem : ∀ u ∈ pre, u ∈ e.tasks := by
    intro u hu
    rw [hcand]
    exact List.mem_append.mpr (Or.inl hu)
  have hmain := handleLoop_raise_aborts ops board pre t post e.tasks hn' hmem hpre ha hr
  rw [Handle_base_eq_loop]
  simp only
  rw [hcand] at hmain ⊢
  refine ⟨hmain.1, fun u hu => ⟨(hmain.2 u hu).1, ?_⟩⟩
  exact (hmain.2 u hu).2 (List.mem_append.mpr (Or.inr (List.mem_cons_of_mem t hu)))

/-- Witness for C7: tasks 5 and 7, where task 5's run raises first; the
call aborts and task 7 is untouched and still in the set. -/
theorem handle_run_exception_aborts_witness :
    (eventFiveSeven.tasks.Nodup ∧
      (BaseEvent.Handle opsRaiserFive BaseEvent.FilterTasks
        eventFiveSeven "board" false).candidates = [] ++ 5 :: [7] ∧
      (∀ u ∈ ([] : List Nat),
        ¬(opsRaiserFive.availableHosts u "board" = true ∧
          opsRaiserFive.run u "board" = Except.error ())) ∧
      opsRaiserFive.availableHosts 5 "board" = true ∧
      opsRaiserFive.run 5 "board" = Except.error ()) ∧
    (BaseEvent.Handle opsRaiserFive BaseEvent.FilterTasks
      eventFiveSeven "board" false).raised = true :=
  ⟨⟨by decide, by decide, by decide, by decide, by decide⟩,
    (handle_run_exception_aborts opsRaiserFive eventFiveSeven "board" false
      [] [7] 5 (by decide) (by decide) (by decide) (by decide) (by decide)).1⟩

/-- C10: a candidate task whose host-availability check for the board is
false is never removed from the task set and its run is never invoked
(no run, removal, or raise action of it is traced); if it moreover reports
that host availability is not required, `Handle` takes no traced action on
it beyond the availability check itself — in particular no skip log. -/
theorem handle_unavailable_hosts_untouched [DecidableEq τ] (ops : TaskOps τ)
    (f : BaseEvent τ μ → List τ) (e : BaseEvent τ μ) (board : String)
    (force : Bool) (t : τ)
    (_hc : t ∈ (BaseEvent.Handle ops f e board force).candidates)
    (ha : ops.availableHosts t board = false) :
    (t ∈ e.tasks → t ∈ (BaseEvent.Handle ops f e board force).tasks) ∧
    (∀ k, HandleStep.ran t k ∉ (BaseEvent.Handle ops f e board force).trace) ∧
    HandleStep.removed t ∉ (BaseEvent.Handle ops f e board force).trace ∧
    HandleStep.raisedInRun t ∉ (BaseEvent.Handle ops f e board force).trace ∧
    (ops.shouldHaveAvailableHosts t = false →
      ∀ s ∈ (BaseEvent.Handle ops f e board force).trace, HandleStep.task s = t →
        s = HandleStep.checkedHosts t false) := by
  have htrace := handleLoop_trace_unavailable ops board
    (if force then e.tasks else f e) e.tasks t ha
  refine ⟨?_, ?_, ?_, ?_, ?_⟩
  · intro hmem
    refine handleLoop_mem_of_not_removable ops board _ e.tasks t hmem ?_
    rintro ⟨-, h, -⟩
    rw [ha] at h
    cases h
  · intro k hk
    rcases htrace (HandleStep.ran t k) hk rfl with h | ⟨-, h⟩ <;> cases h
  · intro hk
    rcases htrace (HandleStep.removed t) hk rfl with h | ⟨-, h⟩ <;> cases h
  · intro hk
    rcases htrace (HandleStep.raisedInRun t) hk rfl with h | ⟨-, h⟩ <;> cases h
  · intro hsh s hs hstask
    rcases htrace s hs hstask with h | ⟨h1, -⟩
    · exact h
    · rw [hsh] at h1
      cases h1

/-- Witness for C10: a single candidate task with no hosts available and no
host requirement is left in the set. -/
theorem handle_unavailable_hosts_untouched_witness :
    (3 ∈ (BaseEvent.Handle opsNoHosts BaseEvent.FilterTasks
        eventThree "board" false).candidates ∧
      opsNoHosts.availableHosts 3 "board" = false) ∧
    (3 ∈ eventThree.tasks → 3 ∈ (BaseEvent.Handle opsNoHosts BaseEvent.FilterTasks
        eventThree "board" false).tasks) :=
  ⟨⟨by decide, by decide⟩,
    (handle_unavailable_hosts_untouched opsNoHosts BaseEvent.FilterTasks
      eventThree "board" false 3 (by decide) (by decide)).1⟩
